import Mathlib

/-!
Verification of the component-registry library in
src/component/src/lib.rs of the fuel repository.

The library embeds a TOML manifest mapping component names to component
records and offers six query operations over it.  Every operation starts
by deserializing the embedded text; we embed each operation as a function
of the outcome of that deserialization, a value of type
Except String MMap, where MMap is the entry list of the
HashMap String Component the Rust code obtains from toml_edit.  Rust
panics (the expect calls in the source) are modelled explicitly with the
PanicOr type, and the anyhow error values with the RegErr type.

String comparison in Rust (the Ord instance used by sort_by_key) is
lexicographic on the UTF-8 bytes, which coincides with the lexicographic
order on the list of unicode scalar values, i.e. with the Mathlib order
on String.  Because the Decidable instance Mathlib provides for that
order does not reduce inside the kernel, we first build an equivalent
boolean comparison on the character lists and use it as the Decidable
witness, so that all definitions evaluate on concrete inputs.
-/

namespace Fuel

/-- Boolean lexicographic comparison of character lists, mirroring the
byte order Rust uses for String. -/
def leChars : List Char → List Char → Bool
  | [], _ => true
  | _ :: _, [] => false
  | a :: as, b :: bs =>
    if a < b then true else if b < a then false else leChars as bs

/-- Inversion for the lexicographic order on cons cells. -/
theorem lex_cons_inv {a b : Char} {as bs : List Char}
    (h : List.Lex (· < ·) (b :: bs) (a :: as)) :
    b < a ∨ (b = a ∧ List.Lex (· < ·) bs as) := by
  cases h with
  | cons h => exact Or.inr ⟨rfl, h⟩
  | rel h => exact Or.inl h

/-- The boolean comparison decides the negation of the strict
lexicographic order in the reverse direction. -/
theorem leChars_iff_not_lex : ∀ xs ys : List Char,
    leChars xs ys = true ↔ ¬ List.Lex (· < ·) ys xs
  | [], [] => by
      simp only [leChars, true_iff]
      exact List.Lex.not_nil_right _ _
  | [], _b :: _bs => by
      simp only [leChars, true_iff]
      exact List.Lex.not_nil_right _ _
  | _a :: _as, [] => by
      simp only [leChars, Bool.false_eq_true, false_iff, not_not]
      exact List.Lex.nil
  | a :: as, b :: bs => by
      rcases lt_trichotomy a b with hab | hab | hab
      · simp only [leChars, if_pos hab, true_iff]
        intro hlex
        rcases lex_cons_inv hlex with h | ⟨h, _⟩
        · exact absurd hab (asymm h)
        · exact absurd hab (h ▸ lt_irrefl b)
      · subst hab
        simp only [leChars, if_neg (lt_irrefl a), leChars_iff_not_lex as bs]
        constructor
        · intro h hlex
          rcases lex_cons_inv hlex with h' | ⟨_, h'⟩
          · exact lt_irrefl a h'
          · exact h h'
        · intro h hlex
          exact h (List.Lex.cons hlex)
      · simp only [leChars, if_neg (asymm hab), if_pos hab, Bool.false_eq_true, false_iff,
          not_not]
        exact List.Lex.rel hab

/-- Kernel-computable comparison deciding the standard String order. -/
def leStr (s t : String) : Bool := leChars s.data t.data

/-- Agreement of the boolean comparison with the Mathlib String order
(which is the same lexicographic order Rust uses). -/
theorem leStr_iff_le (s t : String) : leStr s t = true ↔ s ≤ t := by
  rw [← not_lt]
  rw [String.lt_iff_toList_lt]
  exact leChars_iff_not_lex s.data t.data

/-- Rust: pub struct Component, the deserialized shape of one manifest
entry.  Optional TOML fields become Option values, preserving the
distinction between an absent field and an explicit boolean. -/
structure Component where
  name : String
  is_plugin : Option Bool
  tarball_prefix : String
  executables : List String
  repository_name : String
  targets : List String
  publish : Option Bool
deriving DecidableEq, Repr

/-- Rust: pub const FORC. -/
def FORC : String := "forc"

/-- Rust: pub const FUELUP. -/
def FUELUP : String := "fuelup"

/-- Entry list of the HashMap String Component that from_toml produces.
Iterating keys() and looking each key up, as the Rust operations do,
visits exactly the entries of this list; the list order stands for the
(unspecified) iteration order of the hash map. -/
abbrev MMap := List (String × Component)

/-- Outcome of toml_edit deserialization of the embedded manifest text:
either an error message or the parsed mapping.  Every registry operation
begins with this step, so each is embedded as a function of it. -/
abbrev ParseOutcome := Except String MMap

/-- Result of a Rust computation that may panic (the expect calls in the
source).  A panic aborts the caller and is distinct from any returned
value, including returned error values. -/
inductive PanicOr (α : Type) where
  | panicked (msg : String)
  | ok (a : α)
deriving DecidableEq, Repr

/-- Errors returned (as anyhow::Error values) by the registry: a
propagated deserialization failure, or a failed by-name lookup. -/
inductive RegErr where
  | parseErr (msg : String)
  | notFound (msg : String)
deriving DecidableEq, Repr

/-- Rust: pub struct Plugin, the reduced view used by plugin queries. -/
structure Plugin where
  name : String
  executables : List String
deriving DecidableEq, Repr

/-- Comparison by the name field, the key of every sort_by_key call on
component lists in the source. -/
def leName (c d : Component) : Prop := c.name ≤ d.name

instance : DecidableRel leName :=
  fun c d => decidable_of_iff (leStr c.name d.name = true) (leStr_iff_le c.name d.name)

instance : IsTotal Component leName := ⟨fun c d => le_total c.name d.name⟩

instance : IsTrans Component leName := ⟨fun _ _ _ h h' => le_trans h h'⟩

/-- Comparison by the name field for the Plugin view. -/
def lePName (p q : Plugin) : Prop := p.name ≤ q.name

instance : DecidableRel lePName :=
  fun p q => decidable_of_iff (leStr p.name q.name = true) (leStr_iff_le p.name q.name)

instance : IsTotal Plugin lePName := ⟨fun p q => le_total p.name q.name⟩

instance : IsTrans Plugin lePName := ⟨fun _ _ _ h h' => le_trans h h'⟩

/-- Values of the mapping in iteration order.  The source iterates
component.keys() and looks every key up with get (the inner expect can
never fire on a HashMap, since every iterated key is present); on a hash
map this enumerates exactly the entry values. -/
def mapValues (m : MMap) : List Component := m.map Prod.snd

/-- Rust substring containment: hay.contains(needle).  On valid UTF-8
the byte-level search of Rust matches exactly at character boundaries,
so it coincides with infix containment of character lists. -/
def strContains (hay needle : String) : Bool :=
  decide (needle.data <:+: hay.data)

/-- The record Component::from_name synthesizes for the name fuelup,
bypassing the manifest. -/
def fuelupComponent : Component where
  name := FUELUP
  is_plugin := some false
  tarball_prefix := FUELUP
  executables := [FUELUP]
  repository_name := FUELUP
  targets := [FUELUP]
  publish := some true

/-- Rust: Component::from_name.  The special name fuelup returns the
synthesized record before the manifest is consulted.  Otherwise
Components::collect() runs, and its failure is turned into a panic by
expect; on success the name is looked up in the mapping, a missing name
producing the anyhow not-found error. -/
def Component.from_name (p : ParseOutcome) (name : String) :
    PanicOr (Except RegErr Component) :=
  if name = FUELUP then
    .ok (.ok fuelupComponent)
  else
    match p with
    | .error _ => .panicked "Could not collect components"
    | .ok m =>
      match List.lookup name m with
      | none =>
        .ok (.error (.notFound
          ("component with name \x27" ++ name ++ "\x27 does not exist")))
      | some c => .ok (.ok c)

/-- Rust: Plugin::is_main_executable.  The index access executables[0]
is reached only under the length guard, so the default of getD is never
the decisive value. -/
def Plugin.is_main_executable (p : Plugin) : Bool :=
  p.executables.length == 1 && p.name == p.executables.getD 0 ""

namespace Components

/-- Rust: Components::collect_publishables.  Keeps the components whose
publish field is present (and_then ignores the boolean value), then
sorts by name; sort_by_key is a stable sort, modelled by the stable
List.insertionSort.  A deserialization failure propagates through the
question mark operator. -/
def collect_publishables (p : ParseOutcome) : Except RegErr (List Component) :=
  match p with
  | .error e => .error (.parseErr e)
  | .ok m =>
    .ok (List.insertionSort leName
      ((mapValues m).filterMap (fun c => c.publish.bind (fun _ => some c))))

/-- Rust: Components::collect_exclude_plugins.  Keeps the components
whose is_plugin field is absent (is_none), then sorts by name. -/
def collect_exclude_plugins (p : ParseOutcome) : Except RegErr (List Component) :=
  match p with
  | .error e => .error (.parseErr e)
  | .ok m =>
    .ok (List.insertionSort leName
      ((mapValues m).filterMap (fun c => if c.is_plugin.isNone then some c else none)))

/-- Rust: Components::collect_plugins.  Keeps the components whose
is_plugin field is unwrap_or_default true, reduces each to the Plugin
view, then sorts by name. -/
def collect_plugins (p : ParseOutcome) : Except RegErr (List Plugin) :=
  match p with
  | .error e => .error (.parseErr e)
  | .ok m =>
    .ok (List.insertionSort lePName
      (((mapValues m).filter (fun c => c.is_plugin.getD false)).map
        (fun c => { name := c.name, executables := c.executables })))

/-- Rust: Components::collect_plugin_executables.  Extends an empty
vector with the executables of every plugin, in plugin order. -/
def collect_plugin_executables (p : ParseOutcome) : Except RegErr (List String) :=
  match collect_plugins p with
  | .error e => .error e
  | .ok plugins => .ok (plugins.map Plugin.executables).flatten

/-- Rust: Components::contains_published.  Collects the publishable
components, turning a failure into a panic via expect, concatenates
their names with no separator, and checks substring containment. -/
def contains_published (p : ParseOutcome) (name : String) : PanicOr Bool :=
  match collect_publishables p with
  | .error _ => .panicked "Failed to collect publishable components"
  | .ok pubs => .ok (strContains (String.join (pubs.map Component.name)) name)

end Components

/-- Filtering through an if-guarded filterMap is a plain filter. -/
theorem filterMap_guard {α : Type} (p : α → Bool) (l : List α) :
    l.filterMap (fun a => if p a then some a else none) = l.filter p := by
  induction l with
  | nil => rfl
  | cons a l ih =>
    by_cases h : p a <;> simp [List.filterMap_cons, List.filter_cons, h, ih]

/-- The publishable filterMap of the source keeps exactly the components
whose publish field is present. -/
theorem filterMap_publish (l : List Component) :
    l.filterMap (fun c => c.publish.bind (fun _ => some c)) =
      l.filter (fun c => c.publish.isSome) := by
  induction l with
  | nil => rfl
  | cons c l ih =>
    cases h : c.publish <;> simp [List.filterMap_cons, List.filter_cons, h, ih]

/-- Association-list lookup fails exactly on absent keys. -/
theorem lookup_eq_none_iff (k : String) :
    ∀ m : MMap, List.lookup k m = none ↔ k ∉ m.map Prod.fst
  | [] => by simp
  | (k', v) :: m => by
    by_cases h : k = k'
    · subst h
      simp [List.lookup_cons]
    · have hbe : (k == k') = false := beq_eq_false_iff_ne.mpr h
      simp only [List.lookup_cons, hbe, List.map_cons, List.mem_cons, not_or]
      simp [h, lookup_eq_none_iff k m]

/-- With unique keys, association-list lookup finds exactly the stored
pairs. -/
theorem lookup_eq_some_iff {k : String} {v : Component} :
    ∀ {m : MMap}, (m.map Prod.fst).Nodup →
      (List.lookup k m = some v ↔ (k, v) ∈ m)
  | [], _ => by simp
  | (k', v') :: m, hnd => by
    obtain ⟨hk', hnd'⟩ := List.nodup_cons.mp hnd
    by_cases h : k = k'
    · subst h
      simp only [List.lookup_cons, beq_self_eq_true, List.mem_cons, Option.some.injEq]
      constructor
      · intro hv
        exact Or.inl (by rw [hv])
      · rintro (hv | hv)
        · cases hv
          rfl
        · exact absurd (List.mem_map_of_mem Prod.fst hv) hk'
    · have hbe : (k == k') = false := beq_eq_false_iff_ne.mpr h
      simp only [List.lookup_cons, hbe, List.mem_cons]
      rw [lookup_eq_some_iff hnd']
      constructor
      · exact Or.inr
      · rintro (hv | hv)
        · exact absurd (congrArg Prod.fst hv) h
        · exact hv

/-- Lookup is invariant under reordering of a map with unique keys. -/
theorem lookup_perm {m₁ m₂ : MMap} (hp : m₁.Perm m₂)
    (hk : (m₁.map Prod.fst).Nodup) (k : String) :
    List.lookup k m₁ = List.lookup k m₂ := by
  have hk₂ : (m₂.map Prod.fst).Nodup := ((hp.map Prod.fst).nodup_iff).mp hk
  cases h : List.lookup k m₁ with
  | some v =>
    exact ((lookup_eq_some_iff hk₂).mpr (hp.mem_iff.mp ((lookup_eq_some_iff hk).mp h))).symm
  | none =>
    have hnk := (lookup_eq_none_iff k m₁).mp h
    exact ((lookup_eq_none_iff k m₂).mpr
      (fun hc => hnk (((hp.map Prod.fst).mem_iff).mpr hc))).symm

/-- Two sorted lists that enumerate the same elements agree when the
sort keys are pairwise distinct. -/
theorem eq_of_perm_sorted_key {α : Type} (key : α → String) {l₁ l₂ : List α}
    (hq : l₁.Perm l₂)
    (hs₁ : List.Sorted (fun a b => key a ≤ key b) l₁)
    (hs₂ : List.Sorted (fun a b => key a ≤ key b) l₂)
    (hn : (l₁.map key).Nodup) : l₁ = l₂ := by
  haveI : IsAntisymm α (fun a b => key a < key b) :=
    ⟨fun _ _ h h' => absurd h' (lt_asymm h)⟩
  have hn₂ : (l₂.map key).Nodup := ((hq.map key).nodup_iff).mp hn
  have hne₁ : List.Pairwise (fun a b => key a ≠ key b) l₁ := List.pairwise_map.mp hn
  have hne₂ : List.Pairwise (fun a b => key a ≠ key b) l₂ := List.pairwise_map.mp hn₂
  have hlt₁ : List.Sorted (fun a b => key a < key b) l₁ :=
    (hs₁.and hne₁).imp (fun h => lt_of_le_of_ne h.1 h.2)
  have hlt₂ : List.Sorted (fun a b => key a < key b) l₂ :=
    (hs₂.and hne₂).imp (fun h => lt_of_le_of_ne h.1 h.2)
  exact List.eq_of_perm_of_sorted hq hlt₁ hlt₂

/-- Sorting by name is invariant under reordering of the input when the
names are pairwise distinct. -/
theorem insertionSort_leName_eq {l₁ l₂ : List Component} (hq : l₁.Perm l₂)
    (hnd : (l₁.map Component.name).Nodup) :
    List.insertionSort leName l₁ = List.insertionSort leName l₂ :=
  eq_of_perm_sorted_key Component.name
    ((List.perm_insertionSort leName l₁).trans
      (hq.trans (List.perm_insertionSort leName l₂).symm))
    (List.sorted_insertionSort leName l₁) (List.sorted_insertionSort leName l₂)
    (((List.perm_insertionSort leName l₁).map Component.name).nodup_iff.mpr hnd)

/-- Sorting plugins by name is invariant under reordering of the input
when the names are pairwise distinct. -/
theorem insertionSort_lePName_eq {l₁ l₂ : List Plugin} (hq : l₁.Perm l₂)
    (hnd : (l₁.map Plugin.name).Nodup) :
    List.insertionSort lePName l₁ = List.insertionSort lePName l₂ :=
  eq_of_perm_sorted_key Plugin.name
    ((List.perm_insertionSort lePName l₁).trans
      (hq.trans (List.perm_insertionSort lePName l₂).symm))
    (List.sorted_insertionSort lePName l₁) (List.sorted_insertionSort lePName l₂)
    (((List.perm_insertionSort lePName l₁).map Plugin.name).nodup_iff.mpr hnd)

/-- Concrete manifest entry shaped like the real forc entry. -/
def cForc : Component :=
  ⟨"forc", none, "forc-binaries", ["forc"], "sway", ["linux_amd64", "linux_arm64"], some true⟩

/-- Concrete manifest entry with an explicit is_plugin false and an
explicit publish false. -/
def cCore : Component :=
  ⟨"fuel-core", some false, "fuel-core", ["fuel-core"], "fuel-core", ["linux_amd64"], some false⟩

/-- Concrete plugin entry with publish absent. -/
def cFmt : Component :=
  ⟨"forc-fmt", some true, "forc-binaries", ["forc-fmt"], "sway", ["linux_amd64"], none⟩

/-- Concrete plugin entry with two executables. -/
def cLsp : Component :=
  ⟨"forc-lsp", some true, "forc-binaries", ["forc-lsp", "forc-lsp-helper"], "sway",
    ["linux_amd64"], some true⟩

/-- Concrete four-entry manifest used to instantiate the theorems. -/
def mTest : MMap :=
  [("forc-fmt", cFmt), ("fuel-core", cCore), ("forc", cForc), ("forc-lsp", cLsp)]

/-- Concrete two-entry manifest, first iteration order. -/
def wA : MMap := [("forc", cForc), ("forc-fmt", cFmt)]

/-- Concrete two-entry manifest, second iteration order. -/
def wB : MMap := [("forc-fmt", cFmt), ("forc", cForc)]

/-- C1: on a successfully parsed manifest, contains_published returns
true exactly when the argument occurs as a contiguous substring of the
concatenation, in ascending name order with no separator, of the names
of all components whose publish field is present; it is substring
containment, not set membership. -/
theorem contains_published_substring_spec (m : MMap) (name : String) :
    Components.contains_published (.ok m) name = .ok true ↔
      name.data <:+:
        (String.join ((List.insertionSort leName
          ((mapValues m).filter (fun c => c.publish.isSome))).map Component.name)).data := by
  simp only [Components.contains_published, Components.collect_publishables,
    filterMap_publish, strContains, PanicOr.ok.injEq, decide_eq_true_eq]

/-- C2 counterexample: a parse failure is not returned unchanged by
every registry operation; get_by_name and is_name_published turn it into
a panic instead of a typed failure result. -/
theorem parse_failure_panic_cex :
    Component.from_name (.error "bad toml") "forc" =
      .panicked "Could not collect components" ∧
    Component.from_name (.error "bad toml") "forc" ≠
      .ok (.error (.parseErr "bad toml")) ∧
    Components.contains_published (.error "bad toml") "forc" =
      .panicked "Failed to collect publishable components" := by
  refine ⟨rfl, ?_, rfl⟩
  intro hc
  exact PanicOr.noConfusion hc

/-- C2 amended: the four collection operations propagate a parse failure
to the caller unchanged as a typed failure result, while get_by_name (on
any name other than fuelup) and is_name_published turn the same failure
into a panic through expect. -/
theorem parse_failure_propagation (e nm : String) (h : nm ≠ FUELUP) :
    Components.collect_publishables (.error e) = .error (.parseErr e) ∧
    Components.collect_exclude_plugins (.error e) = .error (.parseErr e) ∧
    Components.collect_plugins (.error e) = .error (.parseErr e) ∧
    Components.collect_plugin_executables (.error e) = .error (.parseErr e) ∧
    Component.from_name (.error e) nm = .panicked "Could not collect components" ∧
    Components.contains_published (.error e) nm =
      .panicked "Failed to collect publishable components" := by
  refine ⟨rfl, rfl, rfl, rfl, ?_, rfl⟩
  simp [Component.from_name, h]

/-- C2 witness: the amended statement at a concrete failure and name. -/
theorem parse_failure_propagation_w :
    Components.collect_publishables (.error "bad") = .error (.parseErr "bad") ∧
    Components.collect_exclude_plugins (.error "bad") = .error (.parseErr "bad") ∧
    Components.collect_plugins (.error "bad") = .error (.parseErr "bad") ∧
    Components.collect_plugin_executables (.error "bad") = .error (.parseErr "bad") ∧
    Component.from_name (.error "bad") "forc" = .panicked "Could not collect components" ∧
    Components.contains_published (.error "bad") "forc" =
      .panicked "Failed to collect publishable components" :=
  parse_failure_propagation "bad" "forc" (by decide)

/-- C3: from_name for the name fuelup ignores the parse outcome entirely
and returns the synthesized record with every field fixed: name,
tarball_prefix, repository_name all fuelup, executables and targets the
single-element fuelup lists, is_plugin explicitly false and publish
explicitly true. -/
theorem from_name_fuelup_spec (p : ParseOutcome) :
    Component.from_name p "fuelup" =
      .ok (.ok ⟨"fuelup", some false, "fuelup", ["fuelup"], "fuelup", ["fuelup"], some true⟩) :=
  rfl

/-- C4: on a successfully parsed manifest, collect_exclude_plugins
returns exactly the components whose is_plugin field is absent, sorted
ascending by name; components carrying an explicit is_plugin value,
false as much as true, are excluded. -/
theorem collect_exclude_plugins_spec (m : MMap) (l : List Component)
    (h : Components.collect_exclude_plugins (.ok m) = .ok l) :
    l.Perm ((mapValues m).filter (fun c => c.is_plugin = none)) ∧
    List.Sorted leName l ∧
    (∀ c ∈ mapValues m, c.is_plugin ≠ none → c ∉ l) := by
  simp only [Components.collect_exclude_plugins, Except.ok.injEq] at h
  subst h
  have hfm : (mapValues m).filterMap (fun c => if c.is_plugin.isNone then some c else none) =
      (mapValues m).filter (fun c => c.is_plugin = none) := by
    rw [filterMap_guard]
    exact List.filter_congr (fun c _ => by cases c.is_plugin <;> rfl)
  have hx : ((mapValues m).filterMap
      (fun c => if c.is_plugin.isNone then some c else none)).Perm
      ((mapValues m).filter (fun c => c.is_plugin = none)) := by
    rw [hfm]
  have hperm := (List.perm_insertionSort leName _).trans hx
  refine ⟨hperm, List.sorted_insertionSort leName _, ?_⟩
  intro c _ hne hcl
  exact hne (of_decide_eq_true (List.mem_filter.mp (hperm.mem_iff.mp hcl)).2)

/-- C4 witness: the concrete manifest keeps only the component with no
is_plugin opinion; the explicit-false and explicit-true carriers are
gone. -/
theorem collect_exclude_plugins_spec_w :
    [cForc].Perm ((mapValues mTest).filter (fun c => c.is_plugin = none)) ∧
    List.Sorted leName [cForc] ∧
    (∀ c ∈ mapValues mTest, c.is_plugin ≠ none → c ∉ [cForc]) :=
  collect_exclude_plugins_spec mTest [cForc] rfl

/-- C5: on a successfully parsed manifest, collect_publishables returns
exactly the components whose publish field is present, with an explicit
false counting as present, sorted ascending by name. -/
theorem collect_publishables_spec (m : MMap) (l : List Component)
    (h : Components.collect_publishables (.ok m) = .ok l) :
    l.Perm ((mapValues m).filter (fun c => c.publish.isSome)) ∧
    List.Sorted leName l ∧
    (∀ c ∈ mapValues m, c.publish.isSome → c ∈ l) := by
  simp only [Components.collect_publishables, Except.ok.injEq] at h
  subst h
  have hx : ((mapValues m).filterMap (fun c => c.publish.bind (fun _ => some c))).Perm
      ((mapValues m).filter (fun c => c.publish.isSome)) := by
    rw [filterMap_publish]
  have hperm := (List.perm_insertionSort leName _).trans hx
  refine ⟨hperm, List.sorted_insertionSort leName _, ?_⟩
  intro c hc hpub
  exact hperm.mem_iff.mpr (List.mem_filter.mpr ⟨hc, hpub⟩)

/-- C5 witness: the concrete result keeps the publish-false component
fuel-core and is sorted by name. -/
theorem collect_publishables_spec_w :
    [cForc, cLsp, cCore].Perm ((mapValues mTest).filter (fun c => c.publish.isSome)) ∧
    List.Sorted leName [cForc, cLsp, cCore] ∧
    (∀ c ∈ mapValues mTest, c.publish.isSome → c ∈ [cForc, cLsp, cCore]) :=
  collect_publishables_spec mTest [cForc, cLsp, cCore] rfl

/-- C6: on a successfully parsed manifest, collect_plugins returns the
name-plus-executables view of exactly the components whose is_plugin is
explicitly true, sorted ascending by name, and
collect_plugin_executables concatenates their executables in that same
order with no deduplication. -/
theorem collect_plugins_spec (m : MMap) (ps : List Plugin)
    (h : Components.collect_plugins (.ok m) = .ok ps) :
    ps.Perm (((mapValues m).filter (fun c => c.is_plugin = some true)).map
      (fun c => ⟨c.name, c.executables⟩)) ∧
    List.Sorted lePName ps ∧
    Components.collect_plugin_executables (.ok m) = .ok (ps.map Plugin.executables).flatten := by
  simp only [Components.collect_plugins, Except.ok.injEq] at h
  have hfl : (mapValues m).filter (fun c => c.is_plugin.getD false) =
      (mapValues m).filter (fun c => c.is_plugin = some true) :=
    List.filter_congr (fun c _ => by
      cases hx : c.is_plugin with
      | none => rfl
      | some b => cases b <;> simp [hx])
  subst h
  have hx : (((mapValues m).filter (fun c => c.is_plugin.getD false)).map
      (fun c => (⟨c.name, c.executables⟩ : Plugin))).Perm
      (((mapValues m).filter (fun c => c.is_plugin = some true)).map
      (fun c => (⟨c.name, c.executables⟩ : Plugin))) := by
    rw [hfl]
  have hperm := (List.perm_insertionSort lePName _).trans hx
  refine ⟨hperm, List.sorted_insertionSort lePName _, ?_⟩
  simp only [Components.collect_plugin_executables, Components.collect_plugins]

/-- C6 witness: the concrete manifest yields the two explicit plugins in
name order and their executables concatenated in that order. -/
theorem collect_plugins_spec_w :
    [(⟨"forc-fmt", ["forc-fmt"]⟩ : Plugin), ⟨"forc-lsp", ["forc-lsp", "forc-lsp-helper"]⟩].Perm
      (((mapValues mTest).filter (fun c => c.is_plugin = some true)).map
        (fun c => ⟨c.name, c.executables⟩)) ∧
    List.Sorted lePName
      [(⟨"forc-fmt", ["forc-fmt"]⟩ : Plugin), ⟨"forc-lsp", ["forc-lsp", "forc-lsp-helper"]⟩] ∧
    Components.collect_plugin_executables (.ok mTest) =
      .ok ([(⟨"forc-fmt", ["forc-fmt"]⟩ : Plugin),
        ⟨"forc-lsp", ["forc-lsp", "forc-lsp-helper"]⟩].map Plugin.executables).flatten :=
  collect_plugins_spec mTest
    [⟨"forc-fmt", ["forc-fmt"]⟩, ⟨"forc-lsp", ["forc-lsp", "forc-lsp-helper"]⟩] rfl

/-- C7: on a successfully parsed manifest, from_name on a name that is
neither fuelup nor a key of the mapping fails with the not-found error,
and the offending name occurs in the error message. -/
theorem from_name_not_found_spec (m : MMap) (nm : String)
    (h₁ : nm ≠ FUELUP) (h₂ : nm ∉ m.map Prod.fst) :
    Component.from_name (.ok m) nm =
      .ok (.error (.notFound
        ("component with name \x27" ++ nm ++ "\x27 does not exist"))) ∧
    nm.data <:+: ("component with name \x27" ++ nm ++ "\x27 does not exist").data := by
  constructor
  · have hl : List.lookup nm m = none := (lookup_eq_none_iff nm m).mpr h₂
    simp [Component.from_name, h₁, hl]
  · rw [String.data_append, String.data_append]
    exact List.infix_append _ _ _

/-- C7 witness: a concrete absent name fails with the message containing
that name. -/
theorem from_name_not_found_spec_w :
    Component.from_name (.ok mTest) "forc-doc" =
      .ok (.error (.notFound
        ("component with name \x27forc-doc\x27 does not exist"))) ∧
    ("forc-doc" : String).data <:+:
      ("component with name \x27forc-doc\x27 does not exist" : String).data := by
  have h := from_name_not_found_spec mTest "forc-doc" (by decide) (by decide)
  exact ⟨h.1, h.2⟩

/-- C8: a Plugin is its own main executable exactly when its executables
sequence is the single element equal to its name. -/
theorem is_main_executable_spec (p : Plugin) :
    p.is_main_executable = true ↔ p.executables = [p.name] := by
  simp only [Plugin.is_main_executable, Bool.and_eq_true, beq_iff_eq]
  constructor
  · rintro ⟨h1, h2⟩
    obtain ⟨a, ha⟩ := List.length_eq_one.mp h1
    rw [ha] at h2
    rw [ha, h2]
    rfl
  · intro h
    rw [h]
    exact ⟨rfl, rfl⟩

/-- C9: with the manifest content fixed, every query operation is a
function of the entries alone: two iteration orders of the same mapping
(unique keys, and component names pairwise distinct, as when every name
equals its unique key) give equal results for all six operations, so the
explicit sort makes the output independent of hash-map iteration
order. -/
theorem queries_deterministic_spec (m₁ m₂ : MMap) (nm : String)
    (hp : m₁.Perm m₂)
    (hk : (m₁.map Prod.fst).Nodup)
    (hn : ((mapValues m₁).map Component.name).Nodup) :
    Component.from_name (.ok m₁) nm = Component.from_name (.ok m₂) nm ∧
    Components.collect_publishables (.ok m₁) = Components.collect_publishables (.ok m₂) ∧
    Components.collect_exclude_plugins (.ok m₁) =
      Components.collect_exclude_plugins (.ok m₂) ∧
    Components.collect_plugins (.ok m₁) = Components.collect_plugins (.ok m₂) ∧
    Components.collect_plugin_executables (.ok m₁) =
      Components.collect_plugin_executables (.ok m₂) ∧
    Components.contains_published (.ok m₁) nm = Components.contains_published (.ok m₂) nm := by
  have hv : (mapValues m₁).Perm (mapValues m₂) := hp.map Prod.snd
  have hpub : Components.collect_publishables (.ok m₁) =
      Components.collect_publishables (.ok m₂) := by
    simp only [Components.collect_publishables]
    refine congrArg Except.ok (insertionSort_leName_eq (hv.filterMap _) ?_)
    rw [filterMap_publish]
    exact (((mapValues m₁).filter_sublist).map Component.name).nodup hn
  have hexc : Components.collect_exclude_plugins (.ok m₁) =
      Components.collect_exclude_plugins (.ok m₂) := by
    simp only [Components.collect_exclude_plugins]
    refine congrArg Except.ok (insertionSort_leName_eq (hv.filterMap _) ?_)
    rw [filterMap_guard]
    exact (((mapValues m₁).filter_sublist).map Component.name).nodup hn
  have hplug : Components.collect_plugins (.ok m₁) = Components.collect_plugins (.ok m₂) := by
    simp only [Components.collect_plugins]
    refine congrArg Except.ok (insertionSort_lePName_eq ((hv.filter _).map _) ?_)
    rw [List.map_map]
    exact (((mapValues m₁).filter_sublist).map _).nodup hn
  have hfrom : Component.from_name (.ok m₁) nm = Component.from_name (.ok m₂) nm := by
    by_cases hf : nm = FUELUP
    · simp [Component.from_name, hf]
    · simp only [Component.from_name, if_neg hf, lookup_perm hp hk nm]
  refine ⟨hfrom, hpub, hexc, hplug, ?_, ?_⟩
  · simp only [Components.collect_plugin_executables, hplug]
  · simp only [Components.contains_published, hpub]

/-- C9 witness: the two iteration orders of a concrete two-entry
manifest give equal results for all six operations. -/
theorem queries_deterministic_spec_w :
    Component.from_name (.ok wA) "forc" = Component.from_name (.ok wB) "forc" ∧
    Components.collect_publishables (.ok wA) = Components.collect_publishables (.ok wB) ∧
    Components.collect_exclude_plugins (.ok wA) =
      Components.collect_exclude_plugins (.ok wB) ∧
    Components.collect_plugins (.ok wA) = Components.collect_plugins (.ok wB) ∧
    Components.collect_plugin_executables (.ok wA) =
      Components.collect_plugin_executables (.ok wB) ∧
    Components.contains_published (.ok wA) "forc" =
      Components.contains_published (.ok wB) "forc" :=
  queries_deterministic_spec wA wB "forc"
    (List.Perm.swap ("forc-fmt", cFmt) ("forc", cForc) []) (by decide) (by decide)

/-- C10: the empty string is a substring of every concatenation, so
contains_published accepts it for every parsed manifest, even the empty
one, where no component is publishable at all; hence some accepted input
is not the name of any publishable component. -/
theorem contains_published_empty_string_spec :
    (∀ m : MMap, Components.contains_published (.ok m) "" = .ok true) ∧
    Components.collect_publishables (.ok ([] : MMap)) = .ok [] ∧
    Components.contains_published (.ok ([] : MMap)) "" = .ok true := by
  refine ⟨?_, rfl, rfl⟩
  intro m
  simp only [Components.contains_published, Components.collect_publishables]
  exact congrArg PanicOr.ok (decide_eq_true List.nil_infix)

end Fuel
